import Mathlib

/-!
Verification of the grayscale conversion kernel (`src/image_cython.pyx`,
`grayscale_cython`) and the sum-of-squares accumulator
(`src/cython_demo.pyx`, `sum_of_squares`).

The per-pixel arithmetic of `grayscale_cython` is C double-precision
(IEEE-754 binary64) arithmetic: each sample (an `unsigned char`) is
converted exactly to a double, multiplied by a double constant, and the
three products are summed left-to-right, every operation rounding to
nearest, ties to even.  We model binary64 values exactly as integer
mantissa/exponent pairs (`Dbl`), so that all pixel computations are
kernel-computable; rational values (`Dbl.val`) are used only in proofs.
Overflow to infinity is not modelled: every value reachable in this
program is far below the overflow threshold.

The image buffers are modelled as nested lists, and `grayscale_cython`
as a state transformer on a pair of buffers (`Mem`), with the exact loop
structure of the source: the row loop runs over `source_image.shape[0]`,
the column loop over `source_image.shape[1]`, and each iteration performs
one write to the destination.  `prange(..., schedule='static')` partitions
the row range between workers; since the model is deterministic we model
the loop sequentially and prove separately that any execution order of the
rows produces the same result.
-/

/-- Number of binary digits of `n` (`0` for `0`), computed with a fuel
argument so that the recursion is structural and kernel-reducible.  The
fuel `n` itself always suffices since the argument at least halves. -/
def bitLenAux : ℕ → ℕ → ℕ
  | 0, _ => 0
  | fuel+1, n => if n = 0 then 0 else bitLenAux fuel (n / 2) + 1

/-- Number of binary digits of `n`: `bitLen 0 = 0` and
`2^(bitLen n - 1) ≤ n < 2^(bitLen n)` for `n ≥ 1`. -/
def bitLen (n : ℕ) : ℕ := bitLenAux n n

/-- Round `a / b` to the nearest integer, ties to even (`b > 0`). -/
def rneDiv (a b : ℕ) : ℕ :=
  let q := a / b
  let r := a % b
  if 2 * r < b then q
  else if b < 2 * r then q + 1
  else if q % 2 = 0 then q else q + 1

/-- Round `x / 2^s` to the nearest integer, ties to even (floor-based,
valid for either sign of `x`). -/
def rneShift (x : ℤ) (s : ℕ) : ℤ :=
  if 2 * (x % 2 ^ s) < 2 ^ s then x / 2 ^ s
  else if (2 : ℤ) ^ s < 2 * (x % 2 ^ s) then x / 2 ^ s + 1
  else if (x / 2 ^ s) % 2 = 0 then x / 2 ^ s else x / 2 ^ s + 1

/-- A binary64 floating-point value `m * 2^e` in mantissa/exponent form. -/
structure Dbl where
  m : ℤ
  e : ℤ

/-- Shift needed to round the exact value `x * 2^k` into binary64: at most
53 mantissa bits, and a value granularity of at least `2^(-1074)` (the
subnormal limit). -/
def fpShift (x k : ℤ) : ℤ := max ((bitLen x.natAbs : ℤ) - 53) (-1074 - k)

/-- Round the exact value `x * 2^k` to the nearest binary64, ties to even. -/
def fpRound (x k : ℤ) : Dbl :=
  if fpShift x k ≤ 0 then ⟨x, k⟩
  else ⟨rneShift x (fpShift x k).toNat, k + fpShift x k⟩

/-- IEEE-754 binary64 multiplication: round the exact product. -/
def fpMul (a b : Dbl) : Dbl := fpRound (a.m * b.m) (a.e + b.e)

/-- IEEE-754 binary64 addition: align the exponents exactly, then round
the exact sum. -/
def fpAdd (a b : Dbl) : Dbl :=
  if a.e ≤ b.e then fpRound (a.m + b.m * 2 ^ (b.e - a.e).toNat) a.e
  else fpRound (a.m * 2 ^ (a.e - b.e).toNat + b.m) b.e

/-- The nearest binary64 to the fraction `p / q` (for `p, q ≥ 1` in the
normal range): the double a C compiler produces for a decimal literal
such as `0.299`.  `t` is the floor of the base-2 logarithm of `p / q`,
so the mantissa `p / q * 2^(52 - t)` lies in `[2^52, 2^53)` and is
rounded to nearest, ties to even, in a single rounding step. -/
def fpOfRat (p q : ℕ) : Dbl :=
  let E : ℤ := (bitLen p : ℤ) - (bitLen q : ℤ) + 1
  let t : ℤ := if q * 2 ^ (E - 1).toNat ≤ p * 2 ^ (1 - E).toNat then E - 1 else E - 2
  let s : ℤ := 52 - t
  ⟨(rneDiv (p * 2 ^ s.toNat) (q * 2 ^ (-s).toNat) : ℤ), t - 52⟩

/-- The C double literal `0.299` (red weight). -/
def c0299 : Dbl := fpOfRat 299 1000

/-- The C double literal `0.587` (green weight). -/
def c0587 : Dbl := fpOfRat 587 1000

/-- The C double literal `0.114` (blue weight). -/
def c0114 : Dbl := fpOfRat 114 1000

/-- C cast of a double to an integer type: truncation toward zero. -/
def dblTrunc (d : Dbl) : ℤ :=
  if 0 ≤ d.e then d.m * 2 ^ d.e.toNat
  else if 0 ≤ d.m then d.m / 2 ^ (-d.e).toNat
  else -((-d.m) / 2 ^ (-d.e).toNat)

/-- The double computed for one pixel by the source line
`source_image[y, x, 0] * 0.299 + source_image[y, x, 1] * 0.587 +
source_image[y, x, 2] * 0.114`: the samples convert exactly to double,
and the sum is evaluated left-to-right in binary64. -/
def lumaDbl (r g b : ℕ) : Dbl :=
  fpAdd (fpAdd (fpMul ⟨r, 0⟩ c0299) (fpMul ⟨g, 0⟩ c0587)) (fpMul ⟨b, 0⟩ c0114)

/-- The byte the code stores for one pixel: the double is cast to a C
`int` (truncation toward zero) and that int is converted to
`unsigned char` (reduction modulo 256) by the assignment into
`dest_image`. -/
def pixelByte (r g b : ℕ) : ℕ := (dblTrunc (lumaDbl r g b) % 256).toNat

/-- The reference value of the spec for one pixel: the truncation toward
zero of `r*0.299 + g*0.587 + b*0.114`, the three-term sum computed
left-to-right in double precision and truncated once after the full sum. -/
def lumaRef (r g b : ℕ) : ℕ := (dblTrunc (lumaDbl r g b)).toNat

/-- The rational value denoted by a `Dbl` (used only in proofs). -/
def Dbl.val (d : Dbl) : ℚ := (d.m : ℚ) * (2 : ℚ) ^ d.e

/-- The pair of caller-owned buffers `grayscale_cython` operates on:
`source` is the H×W×3 read-only image, `dest` the H×W output image. -/
structure Mem where
  source : List (List (List ℕ))
  dest : List (List ℕ)

/-- Read `source_image[y, x, c]` (reads are unchecked in the source:
`boundscheck(False)`; the model totalises them with default `0`). -/
def srcAt (m : Mem) (y x c : ℕ) : ℕ := ((m.source.getD y []).getD x []).getD c 0

/-- Read `dest_image[y, x]`. -/
def destAt (m : Mem) (y x : ℕ) : ℕ := (m.dest.getD y []).getD x 0

/-- `source_image.shape[0]`, read before the loop. -/
def srcHeight (m : Mem) : ℕ := m.source.length

/-- `source_image.shape[1]`, read before the loop. -/
def srcWidth (m : Mem) : ℕ := (m.source.getD 0 []).length

/-- Write `dest_image[y, x] = v` (writes beyond the buffer extent are
out-of-bounds in the unchecked source; the model makes them no-ops). -/
def writeDest (m : Mem) (y x v : ℕ) : Mem :=
  { m with dest := m.dest.set y ((m.dest.getD y []).set x v) }

/-- One iteration of the inner loop body:
`dest_image[y, x] = int(source_image[y,x,0]*0.299 + source_image[y,x,1]*0.587 + source_image[y,x,2]*0.114)`. -/
def doPixel (m : Mem) (y x : ℕ) : Mem :=
  writeDest m y x (pixelByte (srcAt m y x 0) (srcAt m y x 1) (srcAt m y x 2))

/-- The inner column loop `for x in range(width)` for row `y`;
this is the unit of work one parallel worker performs per row. -/
def innerLoop (m : Mem) (y W : ℕ) : Mem :=
  (List.range W).foldl (fun acc x => doPixel acc y x) m

/-- `grayscale_cython`: the outer loop `for y in prange(height, schedule='static')`
with the inner column loop; `height` and `width` are read from the source
image's shape before the loop starts.  The static schedule partitions the
row range between workers writing disjoint rows; the model executes the
rows sequentially, and order-independence is proved separately. -/
def grayscale_cython (m : Mem) : Mem :=
  (List.range (srcHeight m)).foldl (fun acc y => innerLoop acc y (srcWidth m)) m

/-- The byte written for position `(y, x)` of a source image. -/
def pixAt (src : List (List (List ℕ))) (y x : ℕ) : ℕ :=
  pixelByte (((src.getD y []).getD x []).getD 0 0)
    (((src.getD y []).getD x []).getD 1 0)
    (((src.getD y []).getD x []).getD 2 0)

/-- The effect of the inner loop on the single destination row it owns. -/
def rowLoop (src : List (List (List ℕ))) (y W : ℕ) (row : List ℕ) : List ℕ :=
  (List.range W).foldl (fun r x => r.set x (pixAt src y x)) row

/-- Well-formedness of an H×W×3 image of 8-bit samples. -/
def WfImage3 (src : List (List (List ℕ))) (H W : ℕ) : Prop :=
  src.length = H ∧ ∀ row ∈ src, row.length = W ∧ ∀ px ∈ row, px.length = 3 ∧ ∀ v ∈ px, v ≤ 255

/-- Well-formedness of an H×W single-channel image. -/
def WfImage1 (dst : List (List ℕ)) (H W : ℕ) : Prop :=
  dst.length = H ∧ ∀ row ∈ dst, row.length = W

instance (src : List (List (List ℕ))) (H W : ℕ) : Decidable (WfImage3 src H W) := by
  unfold WfImage3
  exact inferInstance

instance (dst : List (List ℕ)) (H W : ℕ) : Decidable (WfImage1 dst H W) := by
  unfold WfImage1
  exact inferInstance

/-- Reduction of a C `int` value modulo 2^32 into `[-2^31, 2^31)`: the
wrap-around behaviour of 32-bit two's-complement arithmetic. -/
def wrap32 (x : ℤ) : ℤ := (x + 2147483648) % 4294967296 - 2147483648

/-- Reduction of a C `long long` value modulo 2^64 into `[-2^63, 2^63)`. -/
def wrap64 (x : ℤ) : ℤ := (x + 9223372036854775808) % 18446744073709551616 - 9223372036854775808

/-- One iteration `total += i * i` of `sum_of_squares` for `i = j + 1`:
`i * i` is a product of 32-bit C ints (wrapping at 32 bits), accumulated
into the 64-bit `total`. -/
def sosStep (total : ℤ) (j : ℕ) : ℤ := wrap64 (total + wrap32 ((j + 1 : ℤ) * (j + 1 : ℤ)))

/-- The loop `for i in range(1, n + 1): total += i * i` run for `k`
iterations starting from `total = 0`. -/
def sosLoop (k : ℕ) : ℤ := (List.range k).foldl sosStep 0

/-- `sum_of_squares(n)` from `src/cython_demo.pyx`: `n` is a C `int`,
`total` a C `long long` starting at 0, and the loop body squares the
32-bit `i` before accumulating. -/
def sum_of_squares (n : ℤ) : ℤ := sosLoop n.toNat

/-- The exact sum of squares `1² + 2² + ... + k²` (no wrap-around). -/
def sumSqExact : ℕ → ℤ
  | 0 => 0
  | k+1 => sumSqExact k + ((k : ℤ) + 1) ^ 2

/-! ### Facts about `bitLen` -/

theorem bitLenAux_zero : ∀ fuel, bitLenAux fuel 0 = 0 := by
  intro fuel
  cases fuel <;> simp [bitLenAux]

theorem bitLenAux_le : ∀ fuel n k : ℕ, n < 2 ^ k → bitLenAux fuel n ≤ k := by
  intro fuel
  induction fuel with
  | zero => intro n k _; simp [bitLenAux]
  | succ f ih =>
    intro n k h
    by_cases hn : n = 0
    · simp [bitLenAux, hn]
    · cases k with
      | zero => simp at h; omega
      | succ k' =>
        have hp : (2 : ℕ) ^ (k' + 1) = 2 ^ k' * 2 := pow_succ 2 k'
        have h2 : n / 2 < 2 ^ k' := (Nat.div_lt_iff_lt_mul two_pos).2 (by omega)
        simp only [bitLenAux, hn, if_false]
        exact Nat.succ_le_succ (ih _ _ h2)

theorem bitLenAux_spec : ∀ fuel n : ℕ, n ≤ fuel → n ≠ 0 →
    2 ^ (bitLenAux fuel n - 1) ≤ n ∧ n < 2 ^ bitLenAux fuel n := by
  intro fuel
  induction fuel with
  | zero => intro n h hn; omega
  | succ f ih =>
    intro n h hn
    simp only [bitLenAux, hn, if_false]
    by_cases h1 : n / 2 = 0
    · have hn1 : n = 1 := by omega
      subst hn1
      simp [bitLenAux_zero]
    · obtain ⟨ha, hb⟩ := ih (n / 2) (by omega) h1
      have ha1 : 1 ≤ bitLenAux f (n / 2) := by
        by_contra hc
        have h0 : bitLenAux f (n / 2) = 0 := by omega
        rw [h0] at hb
        simp at hb
        omega
      have e1 : 2 ^ bitLenAux f (n / 2) = 2 * 2 ^ (bitLenAux f (n / 2) - 1) := by
        cases hh : bitLenAux f (n / 2) with
        | zero => omega
        | succ a' => rw [pow_succ]; have : a' + 1 - 1 = a' := rfl; rw [this]; ring
      have e2 : 2 ^ (bitLenAux f (n / 2) + 1) = 2 * 2 ^ bitLenAux f (n / 2) := by
        rw [pow_succ]; ring
      simp only [Nat.add_sub_cancel]
      constructor
      · omega
      · omega

theorem bitLen_le {n k : ℕ} (h : n < 2 ^ k) : bitLen n ≤ k := bitLenAux_le n n k h

theorem bitLen_spec {n : ℕ} (hn : n ≠ 0) :
    2 ^ (bitLen n - 1) ≤ n ∧ n < 2 ^ bitLen n := bitLenAux_spec n n le_rfl hn

/-! ### Rounding to nearest: bounds -/

theorem rneShift_le (x : ℤ) (s : ℕ) : (rneShift x s : ℚ) ≤ (x : ℚ) / 2 ^ s + 1 / 2 := by
  have hd0 : (0 : ℤ) < 2 ^ s := by positivity
  have hid : (2 : ℤ) ^ s * (x / 2 ^ s) + x % 2 ^ s = x := Int.ediv_add_emod x (2 ^ s)
  have hr0 : (0 : ℤ) ≤ x % 2 ^ s := Int.emod_nonneg x (by positivity)
  have hrd : x % 2 ^ s < 2 ^ s := Int.emod_lt_of_pos x hd0
  have hdq : (0 : ℚ) < (2 : ℚ) ^ s := by positivity
  have key : (x : ℚ) / 2 ^ s = ((x / 2 ^ s : ℤ) : ℚ) + ((x % 2 ^ s : ℤ) : ℚ) / 2 ^ s := by
    field_simp
    exact_mod_cast (by linarith : x = x / 2 ^ s * (2 : ℤ) ^ s + x % 2 ^ s)
  have hr0q : (0 : ℚ) ≤ ((x % 2 ^ s : ℤ) : ℚ) := by exact_mod_cast hr0
  unfold rneShift
  split_ifs with h1 h2 h3
  · rw [key]
    have : (0 : ℚ) ≤ ((x % 2 ^ s : ℤ) : ℚ) / 2 ^ s := div_nonneg hr0q hdq.le
    linarith
  · have h2q : (2 : ℚ) ^ s ≤ 2 * ((x % 2 ^ s : ℤ) : ℚ) := by
      have : (2 : ℤ) ^ s ≤ 2 * (x % 2 ^ s) := by omega
      calc (2 : ℚ) ^ s = (((2 : ℤ) ^ s : ℤ) : ℚ) := by push_cast; ring
        _ ≤ ((2 * (x % 2 ^ s) : ℤ) : ℚ) := by exact_mod_cast this
        _ = 2 * ((x % 2 ^ s : ℤ) : ℚ) := by push_cast; ring
    have hhalf : (1 : ℚ) / 2 ≤ ((x % 2 ^ s : ℤ) : ℚ) / 2 ^ s := by
      rw [div_le_div_iff₀ (by norm_num) hdq]
      linarith
    rw [key]
    push_cast
    linarith
  · rw [key]
    have : (0 : ℚ) ≤ ((x % 2 ^ s : ℤ) : ℚ) / 2 ^ s := div_nonneg hr0q hdq.le
    linarith
  · have htie : 2 * (x % 2 ^ s) = 2 ^ s := by omega
    have htieq : 2 * ((x % 2 ^ s : ℤ) : ℚ) = (2 : ℚ) ^ s := by exact_mod_cast htie
    have hhalf : ((x % 2 ^ s : ℤ) : ℚ) / 2 ^ s = 1 / 2 := by
      field_simp
      linarith
    rw [key]
    push_cast
    linarith

theorem rneShift_nonneg {x : ℤ} (s : ℕ) (hx : 0 ≤ x) : 0 ≤ rneShift x s := by
  have hq : (0 : ℤ) ≤ x / 2 ^ s := Int.ediv_nonneg hx (by positivity)
  unfold rneShift
  split_ifs <;> omega

/-! ### Values of floating-point numbers and rounding error bounds -/

theorem Dbl.val_mk (x k : ℤ) : (Dbl.mk x k).val = (x : ℚ) * (2 : ℚ) ^ k := rfl

theorem Dbl.val_nonneg {d : Dbl} (hm : 0 ≤ d.m) : 0 ≤ d.val := by
  have : (0 : ℚ) < (2 : ℚ) ^ d.e := zpow_pos (by norm_num) d.e
  exact mul_nonneg (by exact_mod_cast hm) this.le

theorem Dbl.val_sample (n : ℕ) : (Dbl.mk (n : ℤ) 0).val = (n : ℚ) := by
  simp [Dbl.val_mk]

theorem fpRound_m_nonneg {x : ℤ} (k : ℤ) (hx : 0 ≤ x) : 0 ≤ (fpRound x k).m := by
  unfold fpRound
  split_ifs
  · exact hx
  · exact rneShift_nonneg _ hx

theorem fpRound_val_le {x k : ℤ} (hx : 0 ≤ x) (hv : (x : ℚ) * (2 : ℚ) ^ k < 512) :
    (fpRound x k).val ≤ (x : ℚ) * (2 : ℚ) ^ k + 1 / 2 ^ 45 := by
  have h2pos : ∀ j : ℤ, (0 : ℚ) < (2 : ℚ) ^ j := fun j => zpow_pos (by norm_num) j
  unfold fpRound
  split_ifs with hs
  · rw [Dbl.val_mk]
    have : (0 : ℚ) < 1 / 2 ^ 45 := by norm_num
    linarith
  · push_neg at hs
    rw [Dbl.val_mk]
    set s := fpShift x k with hsdef
    have hks : k + s ≤ -44 := by
      rcases max_choice ((bitLen x.natAbs : ℤ) - 53) (-1074 - k) with hmax | hmax
      · -- the mantissa-width shift is active
        have hK : (54 : ℤ) ≤ (bitLen x.natAbs : ℤ) := by
          rw [hsdef, fpShift, hmax] at hs
          omega
        have hxne : x.natAbs ≠ 0 := by
          intro h0
          rw [h0] at hK
          simp [bitLen, bitLenAux] at hK
        have hlowZ : (2 : ℤ) ^ (bitLen x.natAbs - 1) ≤ x := by
          calc (2 : ℤ) ^ (bitLen x.natAbs - 1)
              = ((2 ^ (bitLen x.natAbs - 1) : ℕ) : ℤ) := by push_cast; ring
            _ ≤ (x.natAbs : ℤ) := by exact_mod_cast (bitLen_spec hxne).1
            _ = x := Int.natAbs_of_nonneg hx
        have hxq : ((2 : ℚ)) ^ ((bitLen x.natAbs : ℤ) - 1) ≤ (x : ℚ) := by
          have hcast : ((bitLen x.natAbs - 1 : ℕ) : ℤ) = (bitLen x.natAbs : ℤ) - 1 := by omega
          rw [← hcast, zpow_natCast]
          exact_mod_cast hlowZ
        have hcmp : (2 : ℚ) ^ ((bitLen x.natAbs : ℤ) - 1 + k) < (2 : ℚ) ^ (9 : ℤ) := by
          have e1 : (2 : ℚ) ^ ((bitLen x.natAbs : ℤ) - 1 + k) =
              (2 : ℚ) ^ ((bitLen x.natAbs : ℤ) - 1) * (2 : ℚ) ^ k := by
            rw [zpow_add₀ (by norm_num : (2:ℚ) ≠ 0)]
          have e2 : ((2 : ℚ) ^ (9 : ℤ)) = 512 := by norm_num
          rw [e1, e2]
          have := mul_le_mul_of_nonneg_right hxq (h2pos k).le
          linarith
        have : (bitLen x.natAbs : ℤ) - 1 + k < 9 :=
          (zpow_lt_zpow_iff_right₀ (by norm_num : (1:ℚ) < 2)).1 hcmp
        rw [hsdef, fpShift, hmax]
        omega
      · rw [hsdef, fpShift, hmax]
        omega
    have hsnat : ((s.toNat : ℕ) : ℤ) = s := Int.toNat_of_nonneg (by omega)
    have hshift := rneShift_le x s.toNat
    have hmul := mul_le_mul_of_nonneg_right hshift (h2pos (k + s)).le
    have e3 : ((x : ℚ) / 2 ^ s.toNat + 1 / 2) * (2 : ℚ) ^ (k + s) =
        (x : ℚ) * (2 : ℚ) ^ k + (2 : ℚ) ^ (k + s) / 2 := by
      have e4 : ((2 : ℚ)) ^ (s.toNat : ℕ) = (2 : ℚ) ^ s := by
        rw [← zpow_natCast, hsnat]
      have e5 : (2 : ℚ) ^ (k + s) = (2 : ℚ) ^ k * (2 : ℚ) ^ s := by
        rw [zpow_add₀ (by norm_num : (2:ℚ) ≠ 0)]
      rw [e4, e5]
      field_simp
      ring
    have e6 : (2 : ℚ) ^ (k + s) / 2 ≤ 1 / 2 ^ 45 := by
      have h1 : (2 : ℚ) ^ (k + s) ≤ (2 : ℚ) ^ (-44 : ℤ) :=
        zpow_le_zpow_right₀ (by norm_num : (1:ℚ) ≤ 2) hks
      have h2 : ((2 : ℚ)) ^ (-44 : ℤ) = 1 / 2 ^ 44 := by
        rw [show (-44 : ℤ) = -((44 : ℕ) : ℤ) by norm_num, zpow_neg, zpow_natCast]
        norm_num
      rw [h2] at h1
      linarith
    calc ((rneShift x s.toNat : ℤ) : ℚ) * (2 : ℚ) ^ (k + s)
        ≤ ((x : ℚ) / 2 ^ s.toNat + 1 / 2) * (2 : ℚ) ^ (k + s) := hmul
      _ = (x : ℚ) * (2 : ℚ) ^ k + (2 : ℚ) ^ (k + s) / 2 := e3
      _ ≤ (x : ℚ) * (2 : ℚ) ^ k + 1 / 2 ^ 45 := by linarith

theorem fpMul_m_nonneg {a b : Dbl} (ha : 0 ≤ a.m) (hb : 0 ≤ b.m) : 0 ≤ (fpMul a b).m :=
  fpRound_m_nonneg _ (mul_nonneg ha hb)

theorem fpAdd_m_nonneg {a b : Dbl} (ha : 0 ≤ a.m) (hb : 0 ≤ b.m) : 0 ≤ (fpAdd a b).m := by
  unfold fpAdd
  split_ifs
  · exact fpRound_m_nonneg _ (add_nonneg ha (mul_nonneg hb (by positivity)))
  · exact fpRound_m_nonneg _ (add_nonneg (mul_nonneg ha (by positivity)) hb)

theorem fpMul_val_le {a b : Dbl} (ha : 0 ≤ a.m) (hb : 0 ≤ b.m)
    (h : a.val * b.val < 512) : (fpMul a b).val ≤ a.val * b.val + 1 / 2 ^ 45 := by
  have hexact : ((a.m * b.m : ℤ) : ℚ) * (2 : ℚ) ^ (a.e + b.e) = a.val * b.val := by
    rw [zpow_add₀ (by norm_num : (2:ℚ) ≠ 0)]
    unfold Dbl.val
    push_cast
    ring
  unfold fpMul
  have := fpRound_val_le (mul_nonneg ha hb) (by rw [hexact]; exact h)
  rw [hexact] at this
  exact this

theorem fpAdd_val_le {a b : Dbl} (ha : 0 ≤ a.m) (hb : 0 ≤ b.m)
    (h : a.val + b.val < 512) : (fpAdd a b).val ≤ a.val + b.val + 1 / 2 ^ 45 := by
  unfold fpAdd
  split_ifs with hab
  · have hΔ : (((b.e - a.e).toNat : ℕ) : ℤ) = b.e - a.e := Int.toNat_of_nonneg (by omega)
    have e1 : ((2 : ℚ)) ^ ((b.e - a.e).toNat : ℕ) = (2 : ℚ) ^ (b.e - a.e) := by
      rw [← zpow_natCast, hΔ]
    have e2 : (2 : ℚ) ^ (b.e - a.e) * (2 : ℚ) ^ a.e = (2 : ℚ) ^ b.e := by
      rw [← zpow_add₀ (by norm_num : (2:ℚ) ≠ 0)]
      ring_nf
    have hexact : ((a.m + b.m * 2 ^ (b.e - a.e).toNat : ℤ) : ℚ) * (2 : ℚ) ^ a.e
        = a.val + b.val := by
      push_cast
      rw [e1]
      unfold Dbl.val
      rw [add_mul, mul_assoc, e2]
    have hx0 : (0 : ℤ) ≤ a.m + b.m * 2 ^ (b.e - a.e).toNat :=
      add_nonneg ha (mul_nonneg hb (by positivity))
    have := fpRound_val_le hx0 (by rw [hexact]; exact h)
    rw [hexact] at this
    exact this
  · have hΔ : (((a.e - b.e).toNat : ℕ) : ℤ) = a.e - b.e := Int.toNat_of_nonneg (by omega)
    have e1 : ((2 : ℚ)) ^ ((a.e - b.e).toNat : ℕ) = (2 : ℚ) ^ (a.e - b.e) := by
      rw [← zpow_natCast, hΔ]
    have e2 : (2 : ℚ) ^ (a.e - b.e) * (2 : ℚ) ^ b.e = (2 : ℚ) ^ a.e := by
      rw [← zpow_add₀ (by norm_num : (2:ℚ) ≠ 0)]
      ring_nf
    have hexact : ((a.m * 2 ^ (a.e - b.e).toNat + b.m : ℤ) : ℚ) * (2 : ℚ) ^ b.e
        = a.val + b.val := by
      push_cast
      rw [e1]
      unfold Dbl.val
      rw [add_mul, mul_assoc, e2]
    have hx0 : (0 : ℤ) ≤ a.m * 2 ^ (a.e - b.e).toNat + b.m :=
      add_nonneg (mul_nonneg ha (by positivity)) hb
    have := fpRound_val_le hx0 (by rw [hexact]; exact h)
    rw [hexact] at this
    exact this

/-! ### The three weight constants and the per-pixel value bound -/

theorem c0299_val : c0299.val = 5386305154335113 / 2 ^ 54 := by
  have hm : c0299.m = 5386305154335113 := by decide
  have he : c0299.e = -54 := by decide
  unfold Dbl.val
  rw [hm, he, show (-54 : ℤ) = -((54 : ℕ) : ℤ) by norm_num, zpow_neg, zpow_natCast]
  norm_num

theorem c0587_val : c0587.val = 5287225962532962 / 2 ^ 53 := by
  have hm : c0587.m = 5287225962532962 := by decide
  have he : c0587.e = -53 := by decide
  unfold Dbl.val
  rw [hm, he, show (-53 : ℤ) = -((53 : ℕ) : ℤ) by norm_num, zpow_neg, zpow_natCast]
  norm_num

theorem c0114_val : c0114.val = 8214565720323785 / 2 ^ 56 := by
  have hm : c0114.m = 8214565720323785 := by decide
  have he : c0114.e = -56 := by decide
  unfold Dbl.val
  rw [hm, he, show (-56 : ℤ) = -((56 : ℕ) : ℤ) by norm_num, zpow_neg, zpow_natCast]
  norm_num

/-- Certificate that `c0299` is the correctly rounded double for `0.299`:
its value differs from `299/1000` by less than half an ulp (`2^-55`). -/
theorem c0299_nearest : c0299.e = -54 ∧ (299 * 2 ^ 55 - 2000 * c0299.m).natAbs < 1000 := by
  decide

/-- Certificate that `c0587` is the correctly rounded double for `0.587`. -/
theorem c0587_nearest : c0587.e = -53 ∧ (587 * 2 ^ 54 - 2000 * c0587.m).natAbs < 1000 := by
  decide

/-- Certificate that `c0114` is the correctly rounded double for `0.114`. -/
theorem c0114_nearest : c0114.e = -56 ∧ (114 * 2 ^ 57 - 2000 * c0114.m).natAbs < 1000 := by
  decide


theorem c0299_m_eq : c0299.m = 5386305154335113 := by decide

theorem c0587_m_eq : c0587.m = 5287225962532962 := by decide

theorem c0114_m_eq : c0114.m = 8214565720323785 := by decide

theorem c0299_m_nonneg : (0 : ℤ) ≤ c0299.m := by rw [c0299_m_eq]; norm_num

theorem c0587_m_nonneg : (0 : ℤ) ≤ c0587.m := by rw [c0587_m_eq]; norm_num

theorem c0114_m_nonneg : (0 : ℤ) ≤ c0114.m := by rw [c0114_m_eq]; norm_num

theorem lumaDbl_m_nonneg (r g b : ℕ) : 0 ≤ (lumaDbl r g b).m := by
  unfold lumaDbl
  apply fpAdd_m_nonneg
  · apply fpAdd_m_nonneg
    · exact fpMul_m_nonneg (Int.natCast_nonneg r) c0299_m_nonneg
    · exact fpMul_m_nonneg (Int.natCast_nonneg g) c0587_m_nonneg
  · exact fpMul_m_nonneg (Int.natCast_nonneg b) c0114_m_nonneg

theorem lumaDbl_val_lt {r g b : ℕ} (hr : r ≤ 255) (hg : g ≤ 255) (hb : b ≤ 255) :
    (lumaDbl r g b).val < 256 := by
  have hrq : (r : ℚ) ≤ 255 := by exact_mod_cast hr
  have hgq : (g : ℚ) ≤ 255 := by exact_mod_cast hg
  have hbq : (b : ℚ) ≤ 255 := by exact_mod_cast hb
  have hr0 : (0 : ℚ) ≤ (r : ℚ) := Nat.cast_nonneg r
  have hg0 : (0 : ℚ) ≤ (g : ℚ) := Nat.cast_nonneg g
  have hb0 : (0 : ℚ) ≤ (b : ℚ) := Nat.cast_nonneg b
  have hc1 : c0299.val ≤ 299 / 1000 + 1 / 2 ^ 50 := by rw [c0299_val]; norm_num
  have hc2 : c0587.val ≤ 587 / 1000 + 1 / 2 ^ 50 := by rw [c0587_val]; norm_num
  have hc3 : c0114.val ≤ 114 / 1000 + 1 / 2 ^ 50 := by rw [c0114_val]; norm_num
  have hc1p : (0 : ℚ) ≤ c0299.val := by rw [c0299_val]; norm_num
  have hc2p : (0 : ℚ) ≤ c0587.val := by rw [c0587_val]; norm_num
  have hc3p : (0 : ℚ) ≤ c0114.val := by rw [c0114_val]; norm_num
  have hrm : (0 : ℤ) ≤ (Dbl.mk (r : ℤ) 0).m := Int.natCast_nonneg r
  have hgm : (0 : ℤ) ≤ (Dbl.mk (g : ℤ) 0).m := Int.natCast_nonneg g
  have hbm : (0 : ℤ) ≤ (Dbl.mk (b : ℤ) 0).m := Int.natCast_nonneg b
  have hr255 : (Dbl.mk (r : ℤ) 0).val * c0299.val ≤ 255 * c0299.val := by
    rw [Dbl.val_sample]
    exact mul_le_mul_of_nonneg_right hrq hc1p
  have hg255 : (Dbl.mk (g : ℤ) 0).val * c0587.val ≤ 255 * c0587.val := by
    rw [Dbl.val_sample]
    exact mul_le_mul_of_nonneg_right hgq hc2p
  have hb255 : (Dbl.mk (b : ℤ) 0).val * c0114.val ≤ 255 * c0114.val := by
    rw [Dbl.val_sample]
    exact mul_le_mul_of_nonneg_right hbq hc3p
  have hr255n : (0 : ℚ) ≤ (Dbl.mk (r : ℤ) 0).val * c0299.val := by
    rw [Dbl.val_sample]; exact mul_nonneg hr0 hc1p
  have hg255n : (0 : ℚ) ≤ (Dbl.mk (g : ℤ) 0).val * c0587.val := by
    rw [Dbl.val_sample]; exact mul_nonneg hg0 hc2p
  have hb255n : (0 : ℚ) ≤ (Dbl.mk (b : ℤ) 0).val * c0114.val := by
    rw [Dbl.val_sample]; exact mul_nonneg hb0 hc3p
  have hp1 : (fpMul ⟨(r : ℤ), 0⟩ c0299).val ≤ 255 * c0299.val + 1 / 2 ^ 45 := by
    have := fpMul_val_le hrm c0299_m_nonneg (by linarith)
    linarith
  have hp2 : (fpMul ⟨(g : ℤ), 0⟩ c0587).val ≤ 255 * c0587.val + 1 / 2 ^ 45 := by
    have := fpMul_val_le hgm c0587_m_nonneg (by linarith)
    linarith
  have hp3 : (fpMul ⟨(b : ℤ), 0⟩ c0114).val ≤ 255 * c0114.val + 1 / 2 ^ 45 := by
    have := fpMul_val_le hbm c0114_m_nonneg (by linarith)
    linarith
  have hp1m : 0 ≤ (fpMul ⟨(r : ℤ), 0⟩ c0299).m := fpMul_m_nonneg hrm c0299_m_nonneg
  have hp2m : 0 ≤ (fpMul ⟨(g : ℤ), 0⟩ c0587).m := fpMul_m_nonneg hgm c0587_m_nonneg
  have hp3m : 0 ≤ (fpMul ⟨(b : ℤ), 0⟩ c0114).m := fpMul_m_nonneg hbm c0114_m_nonneg
  have hp1n : 0 ≤ (fpMul ⟨(r : ℤ), 0⟩ c0299).val := Dbl.val_nonneg hp1m
  have hp2n : 0 ≤ (fpMul ⟨(g : ℤ), 0⟩ c0587).val := Dbl.val_nonneg hp2m
  have hp3n : 0 ≤ (fpMul ⟨(b : ℤ), 0⟩ c0114).val := Dbl.val_nonneg hp3m
  have hs1 : (fpAdd (fpMul ⟨(r : ℤ), 0⟩ c0299) (fpMul ⟨(g : ℤ), 0⟩ c0587)).val
      ≤ (fpMul ⟨(r : ℤ), 0⟩ c0299).val + (fpMul ⟨(g : ℤ), 0⟩ c0587).val + 1 / 2 ^ 45 :=
    fpAdd_val_le hp1m hp2m (by linarith)
  have hs1m : 0 ≤ (fpAdd (fpMul ⟨(r : ℤ), 0⟩ c0299) (fpMul ⟨(g : ℤ), 0⟩ c0587)).m :=
    fpAdd_m_nonneg hp1m hp2m
  have hs1n : 0 ≤ (fpAdd (fpMul ⟨(r : ℤ), 0⟩ c0299) (fpMul ⟨(g : ℤ), 0⟩ c0587)).val :=
    Dbl.val_nonneg hs1m
  have hs3 : (lumaDbl r g b).val
      ≤ (fpAdd (fpMul ⟨(r : ℤ), 0⟩ c0299) (fpMul ⟨(g : ℤ), 0⟩ c0587)).val
        + (fpMul ⟨(b : ℤ), 0⟩ c0114).val + 1 / 2 ^ 45 := by
    unfold lumaDbl
    exact fpAdd_val_le hs1m hp3m (by linarith)
  have hfin : (255 : ℚ) * (299 / 1000 + 1 / 2 ^ 50) + 255 * (587 / 1000 + 1 / 2 ^ 50)
      + 255 * (114 / 1000 + 1 / 2 ^ 50) + 5 * (1 / 2 ^ 45) < 256 := by norm_num
  linarith

/-! ### Truncation toward zero -/

theorem dblTrunc_nonneg {d : Dbl} (hm : 0 ≤ d.m) : 0 ≤ dblTrunc d := by
  unfold dblTrunc
  by_cases h1 : 0 ≤ d.e
  · rw [if_pos h1]
    exact mul_nonneg hm (by positivity)
  · rw [if_neg h1, if_pos hm]
    exact Int.ediv_nonneg hm (by positivity)

theorem dblTrunc_eq_floor {d : Dbl} (hm : 0 ≤ d.m) : dblTrunc d = ⌊d.val⌋ := by
  unfold dblTrunc
  by_cases h1 : 0 ≤ d.e
  · rw [if_pos h1]
    have he : ((d.e.toNat : ℕ) : ℤ) = d.e := Int.toNat_of_nonneg h1
    have hv : d.val = ((d.m * 2 ^ d.e.toNat : ℤ) : ℚ) := by
      unfold Dbl.val
      push_cast
      rw [← zpow_natCast (2 : ℚ) d.e.toNat, he]
    rw [hv, Int.floor_intCast]
  · rw [if_neg h1, if_pos hm]
    push_neg at h1
    have hk : (((-d.e).toNat : ℕ) : ℤ) = -d.e := Int.toNat_of_nonneg (by omega)
    have he : d.e = -(((-d.e).toNat : ℕ) : ℤ) := by rw [hk]; omega
    have hval : d.val = (d.m : ℚ) / (2 : ℚ) ^ ((-d.e).toNat : ℕ) := by
      unfold Dbl.val
      rw [he, zpow_neg, zpow_natCast, div_eq_mul_inv]
      simp
      omega
    have hid : (2 : ℤ) ^ ((-d.e).toNat) * (d.m / 2 ^ ((-d.e).toNat)) + d.m % 2 ^ ((-d.e).toNat) = d.m :=
      Int.ediv_add_emod d.m _
    have hr0 : (0 : ℤ) ≤ d.m % 2 ^ ((-d.e).toNat) := Int.emod_nonneg _ (by positivity)
    have hrd : d.m % 2 ^ ((-d.e).toNat) < 2 ^ ((-d.e).toNat) := Int.emod_lt_of_pos _ (by positivity)
    have hdq : (0 : ℚ) < (2 : ℚ) ^ ((-d.e).toNat : ℕ) := by positivity
    rw [hval]
    symm
    rw [Int.floor_eq_iff]
    constructor
    · rw [le_div_iff₀ hdq]
      calc ((d.m / 2 ^ ((-d.e).toNat) : ℤ) : ℚ) * (2 : ℚ) ^ ((-d.e).toNat : ℕ)
          = (((d.m / 2 ^ ((-d.e).toNat)) * 2 ^ ((-d.e).toNat) : ℤ) : ℚ) := by push_cast; ring
        _ ≤ ((d.m : ℤ) : ℚ) := by
            exact_mod_cast (by linarith : (d.m / 2 ^ ((-d.e).toNat)) * 2 ^ ((-d.e).toNat) ≤ d.m)
    · rw [div_lt_iff₀ hdq]
      calc ((d.m : ℤ) : ℚ)
          < (((d.m / 2 ^ ((-d.e).toNat) + 1) * 2 ^ ((-d.e).toNat) : ℤ) : ℚ) := by
            exact_mod_cast (by linarith : d.m < (d.m / 2 ^ ((-d.e).toNat) + 1) * 2 ^ ((-d.e).toNat))
        _ = (((d.m / 2 ^ ((-d.e).toNat) : ℤ) : ℚ) + 1) * (2 : ℚ) ^ ((-d.e).toNat : ℕ) := by
            push_cast; ring

theorem dblTrunc_lt_256 {d : Dbl} (hm : 0 ≤ d.m) (hv : d.val < 256) : dblTrunc d < 256 := by
  rw [dblTrunc_eq_floor hm]
  exact Int.floor_lt.2 (by exact_mod_cast hv)

/-- For 8-bit samples the stored byte and the reference value agree: the
truncated sum lies in `[0, 256)`, so the `unsigned char` conversion does
not wrap. -/
theorem pixelByte_eq_lumaRef {r g b : ℕ} (hr : r ≤ 255) (hg : g ≤ 255) (hb : b ≤ 255) :
    pixelByte r g b = lumaRef r g b := by
  have hm : 0 ≤ (lumaDbl r g b).m := lumaDbl_m_nonneg r g b
  have h0 : 0 ≤ dblTrunc (lumaDbl r g b) := dblTrunc_nonneg hm
  have h256 : dblTrunc (lumaDbl r g b) < 256 := dblTrunc_lt_256 hm (lumaDbl_val_lt hr hg hb)
  unfold pixelByte lumaRef
  rw [Int.emod_eq_of_lt h0 h256]

/-! ### List helpers -/

theorem getD_set_self {α : Type} (l : List α) (i : ℕ) (a d : α) (h : i < l.length) :
    (l.set i a).getD i d = a := by
  rw [List.getD_eq_getElem?_getD, List.getElem?_set]
  simp [h]

theorem getD_set_ne {α : Type} (l : List α) {i j : ℕ} (a d : α) (h : i ≠ j) :
    (l.set i a).getD j d = l.getD j d := by
  rw [List.getD_eq_getElem?_getD, List.getElem?_set, if_neg h, ← List.getD_eq_getElem?_getD]

theorem set_getD_self {α : Type} : ∀ (l : List α) (i : ℕ) (d : α), l.set i (l.getD i d) = l := by
  intro l
  induction l with
  | nil => intro i d; rfl
  | cons a t ih =>
    intro i d
    cases i with
    | zero => rw [List.getD_cons_zero]; rfl
    | succ n =>
      rw [List.getD_cons_succ]
      show a :: t.set n (t.getD n d) = a :: t
      rw [ih]

theorem getD_oob {α : Type} {l : List α} {n : ℕ} (d : α) (h : l.length ≤ n) : l.getD n d = d := by
  rw [List.getD_eq_getElem?_getD, List.getElem?_eq_none (by omega), Option.getD_none]

theorem list_eq_of_getD {α : Type} (d : α) (l1 l2 : List α) (hlen : l1.length = l2.length)
    (h : ∀ x, x < l1.length → l1.getD x d = l2.getD x d) : l1 = l2 := by
  apply List.ext_getElem hlen
  intro n h1 h2
  have hx := h n h1
  rwa [List.getD_eq_getElem _ _ h1, List.getD_eq_getElem _ _ h2] at hx

/-! ### Characterisation of the loops of `grayscale_cython` -/

theorem rowLoop_zero (src : List (List (List ℕ))) (y : ℕ) (row : List ℕ) :
    rowLoop src y 0 row = row := rfl

theorem rowLoop_succ (src : List (List (List ℕ))) (y W : ℕ) (row : List ℕ) :
    rowLoop src y (W + 1) row = (rowLoop src y W row).set W (pixAt src y W) := by
  unfold rowLoop
  rw [List.range_succ, List.foldl_append]
  rfl

theorem rowLoop_length (src : List (List (List ℕ))) (y W : ℕ) (row : List ℕ) :
    (rowLoop src y W row).length = row.length := by
  induction W with
  | zero => rfl
  | succ W ih => rw [rowLoop_succ, List.length_set, ih]

theorem rowLoop_nil (src : List (List (List ℕ))) (y W : ℕ) : rowLoop src y W [] = [] := by
  have := rowLoop_length src y W []
  simpa using List.length_eq_zero.1 (by simpa using this)

theorem rowLoop_getD (src : List (List (List ℕ))) (y W : ℕ) (row : List ℕ) (x : ℕ) :
    (rowLoop src y W row).getD x 0 =
      if x < W ∧ x < row.length then pixAt src y x else row.getD x 0 := by
  induction W with
  | zero =>
    rw [rowLoop_zero, if_neg]
    omega
  | succ W ih =>
    rw [rowLoop_succ]
    by_cases hx : x = W
    · subst hx
      by_cases hlen : x < row.length
      · rw [getD_set_self _ _ _ _ (by rw [rowLoop_length]; exact hlen), if_pos ⟨by omega, hlen⟩]
      · rw [List.set_eq_of_length_le (by rw [rowLoop_length]; omega), ih]
        split_ifs with hA hB hB
        · omega
        · omega
        · omega
        · rfl
    · rw [getD_set_ne _ _ _ (fun hc => hx hc.symm), ih]
      split_ifs with hA hB hB
      · rfl
      · omega
      · omega
      · rfl

theorem doPixel_eq (m : Mem) (y x : ℕ) :
    doPixel m y x = ⟨m.source, m.dest.set y ((m.dest.getD y []).set x (pixAt m.source y x))⟩ := rfl

theorem innerLoop_eq (m : Mem) (y W : ℕ) :
    innerLoop m y W = ⟨m.source, m.dest.set y (rowLoop m.source y W (m.dest.getD y []))⟩ := by
  induction W with
  | zero =>
    show m = _
    rw [rowLoop_zero, set_getD_self]
  | succ W ih =>
    have hstep : innerLoop m y (W + 1) = doPixel (innerLoop m y W) y W := by
      unfold innerLoop
      rw [List.range_succ, List.foldl_append]
      rfl
    rw [hstep, ih, doPixel_eq]
    show (⟨m.source, (m.dest.set y (rowLoop m.source y W (m.dest.getD y []))).set y
        (((m.dest.set y (rowLoop m.source y W (m.dest.getD y []))).getD y []).set W
          (pixAt m.source y W))⟩ : Mem) =
      ⟨m.source, m.dest.set y (rowLoop m.source y (W + 1) (m.dest.getD y []))⟩
    rw [rowLoop_succ]
    by_cases hy : y < m.dest.length
    · rw [getD_set_self _ _ _ _ hy, List.set_set]
    · have hle : m.dest.length ≤ y := by omega
      have h1 : ∀ r : List ℕ, m.dest.set y r = m.dest := fun r => List.set_eq_of_length_le hle
      simp only [h1]

theorem outerFold_eq (m : Mem) (W : ℕ) : ∀ k : ℕ,
    ((List.range k).foldl (fun acc y => innerLoop acc y W) m).source = m.source ∧
    ((List.range k).foldl (fun acc y => innerLoop acc y W) m).dest.length = m.dest.length ∧
    ∀ y : ℕ, ((List.range k).foldl (fun acc y => innerLoop acc y W) m).dest.getD y [] =
      if y < k then rowLoop m.source y W (m.dest.getD y []) else m.dest.getD y [] := by
  intro k
  induction k with
  | zero =>
    refine ⟨rfl, rfl, fun y => ?_⟩
    rw [if_neg (by omega)]
    rfl
  | succ k ih =>
    obtain ⟨ihs, ihl, ihd⟩ := ih
    have hstep : (List.range (k + 1)).foldl (fun acc y => innerLoop acc y W) m =
        innerLoop ((List.range k).foldl (fun acc y => innerLoop acc y W) m) k W := by
      rw [List.range_succ, List.foldl_append]
      rfl
    have hk : ((List.range k).foldl (fun acc y => innerLoop acc y W) m).dest.getD k [] =
        m.dest.getD k [] := by
      rw [ihd k, if_neg (by omega)]
    rw [hstep, innerLoop_eq, ihs, hk]
    refine ⟨rfl, ?_, fun y => ?_⟩
    · show (((List.range k).foldl (fun acc v => innerLoop acc v W) m).dest.set k
        (rowLoop m.source k W (m.dest.getD k []))).length = m.dest.length
      rw [List.length_set]
      exact ihl
    · show (((List.range k).foldl (fun acc v => innerLoop acc v W) m).dest.set k
        (rowLoop m.source k W (m.dest.getD k []))).getD y [] = _
      by_cases hy : y = k
      · subst hy
        by_cases hyl : y < ((List.range y).foldl (fun acc v => innerLoop acc v W) m).dest.length
        · rw [getD_set_self _ _ _ _ hyl, if_pos (by omega)]
        · rw [List.set_eq_of_length_le (by omega), ihd y, if_neg (by omega), if_pos (by omega)]
          have h2 : m.dest.getD y [] = ([] : List ℕ) := getD_oob _ (by omega)
          rw [h2, rowLoop_nil]
      · rw [getD_set_ne _ _ _ (Ne.symm hy), ihd y]
        split_ifs with hA hB hB
        · rfl
        · omega
        · omega
        · rfl

theorem grayscale_source_eq (m : Mem) : (grayscale_cython m).source = m.source :=
  (outerFold_eq m (srcWidth m) (srcHeight m)).1

theorem grayscale_dest_length (m : Mem) : (grayscale_cython m).dest.length = m.dest.length :=
  (outerFold_eq m (srcWidth m) (srcHeight m)).2.1

theorem grayscale_dest_getD (m : Mem) (y : ℕ) :
    (grayscale_cython m).dest.getD y [] =
      if y < srcHeight m then rowLoop m.source y (srcWidth m) (m.dest.getD y [])
      else m.dest.getD y [] :=
  (outerFold_eq m (srcWidth m) (srcHeight m)).2.2 y

theorem grayscale_row_length (m : Mem) (y : ℕ) :
    ((grayscale_cython m).dest.getD y []).length = (m.dest.getD y []).length := by
  rw [grayscale_dest_getD]
  by_cases hy : y < srcHeight m
  · rw [if_pos hy, rowLoop_length]
  · rw [if_neg hy]

theorem grayscale_destAt_in (m : Mem) {y x : ℕ} (hy : y < srcHeight m) (hx : x < srcWidth m)
    (hxlen : x < (m.dest.getD y []).length) :
    destAt (grayscale_cython m) y x = pixAt m.source y x := by
  unfold destAt
  rw [grayscale_dest_getD, if_pos hy, rowLoop_getD, if_pos ⟨hx, hxlen⟩]

theorem grayscale_destAt_frame (m : Mem) {y x : ℕ}
    (h : srcHeight m ≤ y ∨ srcWidth m ≤ x ∨ (m.dest.getD y []).length ≤ x) :
    destAt (grayscale_cython m) y x = destAt m y x := by
  unfold destAt
  rw [grayscale_dest_getD]
  by_cases hy : y < srcHeight m
  · rw [if_pos hy, rowLoop_getD, if_neg (by omega)]
  · rw [if_neg hy]

/-! ### Well-formedness helpers -/

theorem wf3_row_length {src : List (List (List ℕ))} {H W : ℕ} (h : WfImage3 src H W)
    {y : ℕ} (hy : y < H) : (src.getD y []).length = W := by
  have hlen := h.1
  have hyl : y < src.length := by omega
  have hmem : src.getD y [] ∈ src := by
    rw [List.getD_eq_getElem _ _ hyl]
    exact List.getElem_mem hyl
  exact (h.2 _ hmem).1

theorem wf1_row_length {dst : List (List ℕ)} {H W : ℕ} (h : WfImage1 dst H W)
    {y : ℕ} (hy : y < H) : (dst.getD y []).length = W := by
  have hlen := h.1
  have hyl : y < dst.length := by omega
  have hmem : dst.getD y [] ∈ dst := by
    rw [List.getD_eq_getElem _ _ hyl]
    exact List.getElem_mem hyl
  exact h.2 _ hmem

theorem wf3_sample_le {src : List (List (List ℕ))} {H W : ℕ} (h : WfImage3 src H W)
    (y x c : ℕ) : ((src.getD y []).getD x []).getD c 0 ≤ 255 := by
  by_cases hy : y < src.length
  · have hrow : src.getD y [] ∈ src := by
      rw [List.getD_eq_getElem _ _ hy]
      exact List.getElem_mem hy
    obtain ⟨-, hpx⟩ := h.2 _ hrow
    by_cases hx : x < (src.getD y []).length
    · have hp : (src.getD y []).getD x [] ∈ src.getD y [] := by
        rw [List.getD_eq_getElem _ _ hx]
        exact List.getElem_mem hx
      obtain ⟨-, hv⟩ := hpx _ hp
      by_cases hc : c < ((src.getD y []).getD x []).length
      · have hin : ((src.getD y []).getD x []).getD c 0 ∈ (src.getD y []).getD x [] := by
          rw [List.getD_eq_getElem _ _ hc]
          exact List.getElem_mem hc
        exact hv _ hin
      · rw [getD_oob _ (by omega)]
        omega
    · rw [getD_oob ([] : List ℕ) (by omega)]
      simp
  · rw [getD_oob ([] : List (List ℕ)) (by omega)]
    simp

theorem grayscale_destAt_wf (m : Mem) {H W : ℕ} {y x : ℕ} (hs : WfImage3 m.source H W)
    (hd : WfImage1 m.dest H W) (hy : y < H) (hx : x < W) :
    destAt (grayscale_cython m) y x =
      pixelByte (srcAt m y x 0) (srcAt m y x 1) (srcAt m y x 2) := by
  have hH : srcHeight m = H := hs.1
  have hW : srcWidth m = W := wf3_row_length hs (by omega)
  have hylen : y < m.dest.length := by rw [hd.1]; exact hy
  have hxlen : x < (m.dest.getD y []).length := by rw [wf1_row_length hd hy]; exact hx
  exact grayscale_destAt_in m (by omega) (by omega) hxlen

/-! ### Commutativity of the per-row work -/

theorem innerLoop_comm (W : ℕ) (m : Mem) (y1 y2 : ℕ) :
    innerLoop (innerLoop m y1 W) y2 W = innerLoop (innerLoop m y2 W) y1 W := by
  by_cases h : y1 = y2
  · rw [h]
  · rw [innerLoop_eq m y1 W, innerLoop_eq, innerLoop_eq m y2 W, innerLoop_eq]
    show (⟨m.source, (m.dest.set y1 (rowLoop m.source y1 W (m.dest.getD y1 []))).set y2
        (rowLoop m.source y2 W
          ((m.dest.set y1 (rowLoop m.source y1 W (m.dest.getD y1 []))).getD y2 []))⟩ : Mem) =
      ⟨m.source, (m.dest.set y2 (rowLoop m.source y2 W (m.dest.getD y2 []))).set y1
        (rowLoop m.source y1 W
          ((m.dest.set y2 (rowLoop m.source y2 W (m.dest.getD y2 []))).getD y1 []))⟩
    rw [getD_set_ne _ _ _ h, getD_set_ne _ _ _ (Ne.symm h), List.set_comm _ _ _ h]

theorem foldl_innerLoop_perm (W : ℕ) : ∀ {l1 l2 : List ℕ}, l1.Perm l2 →
    ∀ m : Mem, l1.foldl (fun acc y => innerLoop acc y W) m
      = l2.foldl (fun acc y => innerLoop acc y W) m := by
  intro l1 l2 h
  induction h with
  | nil => intro m; rfl
  | cons x _ ih => intro m; simp only [List.foldl_cons]; exact ih _
  | swap x y l => intro m; simp only [List.foldl_cons]; rw [innerLoop_comm]
  | trans _ _ ih1 ih2 => intro m; rw [ih1, ih2]

/-! ### Concrete pixel values -/

set_option maxHeartbeats 1000000 in
theorem pixelByte_all255 : pixelByte 255 255 255 = 255 := by decide

set_option maxHeartbeats 1000000 in
theorem pixelByte_scenario : pixelByte 10 20 30 = 18 := by decide

/-! ### `sum_of_squares`: exactness below the 32-bit overflow threshold -/

theorem wrap32_eq {x : ℤ} (h1 : -2147483648 ≤ x) (h2 : x < 2147483648) : wrap32 x = x := by
  unfold wrap32
  omega

theorem wrap64_eq {x : ℤ} (h1 : -9223372036854775808 ≤ x) (h2 : x < 9223372036854775808) :
    wrap64 x = x := by
  unfold wrap64
  omega

theorem sosLoop_succ (k : ℕ) : sosLoop (k + 1) = sosStep (sosLoop k) k := by
  unfold sosLoop
  rw [List.range_succ, List.foldl_append]
  rfl

theorem sumSqExact_nonneg : ∀ k : ℕ, 0 ≤ sumSqExact k := by
  intro k
  induction k with
  | zero => simp [sumSqExact]
  | succ k ih =>
    show 0 ≤ sumSqExact k + ((k : ℤ) + 1) ^ 2
    positivity

theorem sumSqExact_le_cube : ∀ k : ℕ, sumSqExact k ≤ (k : ℤ) ^ 3 := by
  intro k
  induction k with
  | zero => simp [sumSqExact]
  | succ k ih =>
    show sumSqExact k + ((k : ℤ) + 1) ^ 2 ≤ ((k : ℕ) + 1 : ℤ) ^ 3
    have hk0 : (0 : ℤ) ≤ (k : ℤ) := Int.natCast_nonneg k
    nlinarith

theorem sumSqExact_six_mul : ∀ k : ℕ, 6 * sumSqExact k = (k : ℤ) * ((k : ℤ) + 1) * (2 * (k : ℤ) + 1) := by
  intro k
  induction k with
  | zero => simp [sumSqExact]
  | succ k ih =>
    show 6 * (sumSqExact k + ((k : ℤ) + 1) ^ 2) = _
    push_cast
    linear_combination ih

theorem sos_exact : ∀ k : ℕ, k ≤ 46340 → sosLoop k = sumSqExact k := by
  intro k
  induction k with
  | zero => intro _; rfl
  | succ k ih =>
    intro hk
    rw [sosLoop_succ, ih (by omega)]
    unfold sosStep
    have hk0 : (0 : ℤ) ≤ (k : ℤ) := Int.natCast_nonneg k
    have hkb : (k : ℤ) + 1 ≤ 46340 := by exact_mod_cast (by omega : k + 1 ≤ 46340)
    have hksq : ((k : ℤ) + 1) * ((k : ℤ) + 1) < 2147483648 := by nlinarith
    rw [wrap32_eq (by nlinarith) hksq]
    have hEk := sumSqExact_nonneg k
    have hcube := sumSqExact_le_cube k
    have hkb3 : (k : ℤ) ^ 3 ≤ 46340 ^ 3 := by
      have hkk : (k : ℤ) ≤ 46340 := by omega
      exact pow_le_pow_left₀ hk0 hkk 3
    rw [wrap64_eq (by nlinarith) (by nlinarith)]
    show _ = sumSqExact k + ((k : ℤ) + 1) ^ 2
    ring

theorem sumSqExact_46340 : sumSqExact 46340 = 33171177740190 := by
  have h := sumSqExact_six_mul 46340
  norm_num at h
  omega

/-! ### The claims -/

/-- C1: for every H×W×3 source of 8-bit samples and matching H×W
destination, after `grayscale_cython` returns, `dest[y][x]` equals the
truncation toward zero of
`source[y][x][0]*0.299 + source[y][x][1]*0.587 + source[y][x][2]*0.114`,
the three-term sum computed left-to-right in double precision and
truncated once after the full sum (the reference value `lumaRef`). -/
theorem grayscale_cython_pixel_formula (m : Mem) (H W : ℕ)
    (hs : WfImage3 m.source H W) (hd : WfImage1 m.dest H W)
    (y x : ℕ) (hy : y < H) (hx : x < W) :
    destAt (grayscale_cython m) y x
      = lumaRef (srcAt m y x 0) (srcAt m y x 1) (srcAt m y x 2) := by
  rw [grayscale_destAt_wf m hs hd hy hx]
  exact pixelByte_eq_lumaRef (wf3_sample_le hs y x 0) (wf3_sample_le hs y x 1)
    (wf3_sample_le hs y x 2)

set_option maxHeartbeats 1000000 in
/-- Witness for C1 at a concrete 1×1 image. -/
theorem grayscale_cython_pixel_formula_witness :
    WfImage3 [[[10, 20, 30]]] 1 1 ∧ WfImage1 [[7]] 1 1 ∧
      destAt (grayscale_cython ⟨[[[10, 20, 30]]], [[7]]⟩) 0 0
        = lumaRef (srcAt ⟨[[[10, 20, 30]]], [[7]]⟩ 0 0 0)
            (srcAt ⟨[[[10, 20, 30]]], [[7]]⟩ 0 0 1)
            (srcAt ⟨[[[10, 20, 30]]], [[7]]⟩ 0 0 2) :=
  ⟨by decide, by decide,
    grayscale_cython_pixel_formula ⟨[[[10, 20, 30]]], [[7]]⟩ 1 1 (by decide) (by decide)
      0 0 (by decide) (by decide)⟩

set_option maxHeartbeats 1000000 in
/-- C2 counterexample: with a 1×1 source and a 2×1 destination (a
dimension mismatch), `grayscale_cython` detects nothing: it writes the
source-extent pixel, so the destination is not left unmodified and no
`DimensionMismatch` is surfaced (the function has no error path at all). -/
theorem grayscale_cython_mismatch_cex :
    (Mem.mk [[[255, 255, 255]]] [[0], [0]]).source.length
        ≠ (Mem.mk [[[255, 255, 255]]] [[0], [0]]).dest.length ∧
      (grayscale_cython ⟨[[[255, 255, 255]]], [[0], [0]]⟩).dest
        ≠ (Mem.mk [[[255, 255, 255]]] [[0], [0]]).dest := by
  decide

/-- C2 amended: `grayscale_cython` performs no dimension check and can
raise no error: its loops are bounded by the source's shape alone, so on
a mismatched (larger) destination the conversion is still performed over
the whole source extent — the destination is modified, not left
untouched. -/
theorem grayscale_cython_no_mismatch_check (m : Mem) (H W H2 W2 : ℕ)
    (hs : WfImage3 m.source H W) (hd : WfImage1 m.dest H2 W2)
    (hH : H ≤ H2) (hW : W ≤ W2)
    (y x : ℕ) (hy : y < H) (hx : x < W) :
    destAt (grayscale_cython m) y x
      = pixelByte (srcAt m y x 0) (srcAt m y x 1) (srcAt m y x 2) := by
  have hHs : srcHeight m = H := hs.1
  have hWs : srcWidth m = W := wf3_row_length hs (by omega)
  have hxlen : x < (m.dest.getD y []).length := by
    rw [wf1_row_length hd (by omega : y < H2)]
    omega
  exact grayscale_destAt_in m (by omega) (by omega) hxlen

set_option maxHeartbeats 1000000 in
/-- Witness for the amended C2: 1×1 source, 2×2 destination. -/
theorem grayscale_cython_no_mismatch_check_witness :
    WfImage3 [[[10, 20, 30]]] 1 1 ∧ WfImage1 [[5, 6], [7, 8]] 2 2 ∧ 1 ≤ 2 ∧
      destAt (grayscale_cython ⟨[[[10, 20, 30]]], [[5, 6], [7, 8]]⟩) 0 0
        = pixelByte (srcAt ⟨[[[10, 20, 30]]], [[5, 6], [7, 8]]⟩ 0 0 0)
            (srcAt ⟨[[[10, 20, 30]]], [[5, 6], [7, 8]]⟩ 0 0 1)
            (srcAt ⟨[[[10, 20, 30]]], [[5, 6], [7, 8]]⟩ 0 0 2) :=
  ⟨by decide, by decide, by decide,
    grayscale_cython_no_mismatch_check ⟨[[[10, 20, 30]]], [[5, 6], [7, 8]]⟩ 1 1 2 2
      (by decide) (by decide) (by decide) (by decide) 0 0 (by decide) (by decide)⟩

/-- C3 counterexample: at `n = 46341` the 32-bit square `i * i` wraps
(`46341² = 2147488281 ≥ 2^31`), so the loop's result differs from the
closed form `n(n+1)(2n+1)/6`. -/
theorem sum_of_squares_overflow_cex :
    sum_of_squares 46341 ≠ 46341 * (46341 + 1) * (2 * 46341 + 1) / 6 := by
  have h1 : sum_of_squares 46341 = sosLoop 46341 := rfl
  have h2 : sosLoop 46341 = sosStep (sosLoop 46340) 46340 := sosLoop_succ 46340
  have h3 : sosLoop 46340 = sumSqExact 46340 := sos_exact 46340 le_rfl
  rw [h1, h2, h3, sumSqExact_46340]
  decide

/-- C3 amended: for `0 ≤ n ≤ 46340` (below the first 32-bit overflow of
`i * i`) `sum_of_squares` returns exactly `n(n+1)(2n+1)/6`, well inside
the 64-bit accumulator's range; beyond that bound the 32-bit wrap-around
of the squares makes the result deviate from the closed form. -/
theorem sum_of_squares_closed_form (n : ℤ) (h0 : 0 ≤ n) (h1 : n ≤ 46340) :
    sum_of_squares n = n * (n + 1) * (2 * n + 1) / 6 := by
  have hn : ((n.toNat : ℕ) : ℤ) = n := Int.toNat_of_nonneg h0
  have hk : n.toNat ≤ 46340 := by omega
  have h4 : 6 * sum_of_squares n = n * (n + 1) * (2 * n + 1) := by
    show 6 * sosLoop n.toNat = _
    rw [sos_exact _ hk]
    have h3 := sumSqExact_six_mul n.toNat
    rw [hn] at h3
    exact h3
  rw [← h4, Int.mul_ediv_cancel_left _ (by norm_num : (6 : ℤ) ≠ 0)]

/-- Witness for the amended C3 at `n = 5`: `1+4+9+16+25 = 55`. -/
theorem sum_of_squares_closed_form_witness :
    (0 : ℤ) ≤ 5 ∧ (5 : ℤ) ≤ 46340 ∧ sum_of_squares 5 = 5 * (5 + 1) * (2 * 5 + 1) / 6 :=
  ⟨by decide, by decide, sum_of_squares_closed_form 5 (by decide) (by decide)⟩

/-- C4: executing the per-row inner loops in any order — hence for any
static partition of the row range into disjoint chunks and any worker
count — produces exactly the destination `grayscale_cython` produces:
the numeric result is independent of the scheduling of rows, because
distinct rows write disjoint destination regions and read only the
source. -/
theorem grayscale_cython_order_independent (m : Mem) (ys : List ℕ)
    (h : ys.Perm (List.range (srcHeight m))) :
    ys.foldl (fun acc y => innerLoop acc y (srcWidth m)) m = grayscale_cython m :=
  foldl_innerLoop_perm (srcWidth m) h m

set_option maxHeartbeats 1000000 in
/-- Witness for C4: a 2×1 image with the two rows processed in reverse
order. -/
theorem grayscale_cython_order_independent_witness :
    ([1, 0] : List ℕ).Perm (List.range (srcHeight ⟨[[[1, 2, 3]], [[4, 5, 6]]], [[9], [9]]⟩)) ∧
      ([1, 0] : List ℕ).foldl
          (fun acc y => innerLoop acc y (srcWidth ⟨[[[1, 2, 3]], [[4, 5, 6]]], [[9], [9]]⟩))
          ⟨[[[1, 2, 3]], [[4, 5, 6]]], [[9], [9]]⟩
        = grayscale_cython ⟨[[[1, 2, 3]], [[4, 5, 6]]], [[9], [9]]⟩ :=
  ⟨by decide, grayscale_cython_order_independent ⟨[[[1, 2, 3]], [[4, 5, 6]]], [[9], [9]]⟩ [1, 0]
    (by decide)⟩

set_option maxHeartbeats 1000000 in
/-- C5 counterexample: on an all-255 1×1 image the code stores 255, not
254.  In the code's left-to-right order `255*0.299 + 255*0.587 + 255*0.114`
the rounded products sum to exactly 255.0 in binary64; the spec's value
254 comes from the different grouping `255*(0.299+0.587+0.114)`. -/
theorem grayscale_cython_all255_cex :
    destAt (grayscale_cython ⟨[[[255, 255, 255]]], [[0]]⟩) 0 0 ≠ 254 := by
  decide

/-- C5 amended: an all-255 source of matching extent produces an all-255
destination: `trunc(255*0.299 + 255*0.587 + 255*0.114) = 255` under the
double-precision left-to-right evaluation the code performs. -/
theorem grayscale_cython_all255 (m : Mem) (H W : ℕ)
    (hs : WfImage3 m.source H W) (hd : WfImage1 m.dest H W)
    (hall : ∀ y, y < H → ∀ x, x < W → ∀ c, c < 3 → srcAt m y x c = 255)
    (y x : ℕ) (hy : y < H) (hx : x < W) :
    destAt (grayscale_cython m) y x = 255 := by
  rw [grayscale_destAt_wf m hs hd hy hx, hall y hy x hx 0 (by omega),
    hall y hy x hx 1 (by omega), hall y hy x hx 2 (by omega)]
  exact pixelByte_all255

set_option maxHeartbeats 1000000 in
/-- Witness for the amended C5 at a concrete all-255 1×1 image. -/
theorem grayscale_cython_all255_witness :
    WfImage3 [[[255, 255, 255]]] 1 1 ∧ WfImage1 [[0]] 1 1 ∧
      (∀ y, y < 1 → ∀ x, x < 1 → ∀ c, c < 3 →
        srcAt ⟨[[[255, 255, 255]]], [[0]]⟩ y x c = 255) ∧
      destAt (grayscale_cython ⟨[[[255, 255, 255]]], [[0]]⟩) 0 0 = 255 :=
  ⟨by decide, by decide, by decide,
    grayscale_cython_all255 ⟨[[[255, 255, 255]]], [[0]]⟩ 1 1 (by decide) (by decide)
      (by decide) 0 0 (by decide) (by decide)⟩

/-- C6: a source pixel with channels (R=10, G=20, B=30) produces the
output byte 18: `int(10*0.299 + 20*0.587 + 30*0.114) = int(18.15) = 18`
under the code's double-precision evaluation. -/
theorem grayscale_cython_scenario (m : Mem) (H W : ℕ)
    (hs : WfImage3 m.source H W) (hd : WfImage1 m.dest H W)
    (y x : ℕ) (hy : y < H) (hx : x < W)
    (hR : srcAt m y x 0 = 10) (hG : srcAt m y x 1 = 20) (hB : srcAt m y x 2 = 30) :
    destAt (grayscale_cython m) y x = 18 := by
  rw [grayscale_destAt_wf m hs hd hy hx, hR, hG, hB]
  exact pixelByte_scenario

set_option maxHeartbeats 1000000 in
/-- Witness for C6 at a concrete 1×1 image. -/
theorem grayscale_cython_scenario_witness :
    WfImage3 [[[10, 20, 30]]] 1 1 ∧ WfImage1 [[9]] 1 1 ∧
      srcAt ⟨[[[10, 20, 30]]], [[9]]⟩ 0 0 0 = 10 ∧
      destAt (grayscale_cython ⟨[[[10, 20, 30]]], [[9]]⟩) 0 0 = 18 :=
  ⟨by decide, by decide, by decide,
    grayscale_cython_scenario ⟨[[[10, 20, 30]]], [[9]]⟩ 1 1 (by decide) (by decide)
      0 0 (by decide) (by decide) (by decide) (by decide) (by decide)⟩

/-- C7: the conversion result depends only on the source image: running
`grayscale_cython` on the same source into two destination buffers of
matching extent (whatever their prior contents) yields identical
destination contents — the function is deterministic, has no hidden
state, and never reads the destination's prior contents inside the
converted extent. -/
theorem grayscale_cython_dest_independent (m1 m2 : Mem)
    (hsrc : m1.source = m2.source)
    (hd1 : WfImage1 m1.dest (srcHeight m1) (srcWidth m1))
    (hd2 : WfImage1 m2.dest (srcHeight m1) (srcWidth m1)) :
    (grayscale_cython m1).dest = (grayscale_cython m2).dest := by
  have hh2 : srcHeight m2 = srcHeight m1 := by unfold srcHeight; rw [hsrc]
  have hw2 : srcWidth m2 = srcWidth m1 := by unfold srcWidth; rw [hsrc]
  apply list_eq_of_getD ([] : List ℕ)
  · rw [grayscale_dest_length, grayscale_dest_length, hd1.1, hd2.1]
  · intro y hylen
    have hy : y < srcHeight m1 := by
      rw [grayscale_dest_length, hd1.1] at hylen
      exact hylen
    rw [grayscale_dest_getD, grayscale_dest_getD, if_pos hy,
      if_pos (show y < srcHeight m2 by omega), hsrc, hw2]
    apply list_eq_of_getD 0
    · rw [rowLoop_length, rowLoop_length, wf1_row_length hd1 hy, wf1_row_length hd2 hy]
    · intro x hxlen
      have hx : x < srcWidth m1 := by
        rw [rowLoop_length, wf1_row_length hd1 hy] at hxlen
        exact hxlen
      rw [rowLoop_getD, rowLoop_getD,
        if_pos ⟨hx, by rw [wf1_row_length hd1 hy]; exact hx⟩,
        if_pos ⟨hx, by rw [wf1_row_length hd2 hy]; exact hx⟩]

set_option maxHeartbeats 1000000 in
/-- Witness for C7: same 1×1 source, two different prior destination
contents. -/
theorem grayscale_cython_dest_independent_witness :
    (Mem.mk [[[10, 20, 30]]] [[1]]).source = (Mem.mk [[[10, 20, 30]]] [[2]]).source ∧
      WfImage1 (Mem.mk [[[10, 20, 30]]] [[1]]).dest
        (srcHeight ⟨[[[10, 20, 30]]], [[1]]⟩) (srcWidth ⟨[[[10, 20, 30]]], [[1]]⟩) ∧
      WfImage1 (Mem.mk [[[10, 20, 30]]] [[2]]).dest
        (srcHeight ⟨[[[10, 20, 30]]], [[1]]⟩) (srcWidth ⟨[[[10, 20, 30]]], [[1]]⟩) ∧
      (grayscale_cython ⟨[[[10, 20, 30]]], [[1]]⟩).dest
        = (grayscale_cython ⟨[[[10, 20, 30]]], [[2]]⟩).dest :=
  ⟨by decide, by decide, by decide,
    grayscale_cython_dest_independent ⟨[[[10, 20, 30]]], [[1]]⟩ ⟨[[[10, 20, 30]]], [[2]]⟩
      (by decide) (by decide) (by decide)⟩

/-- C8: when the destination buffer has at least the source's extent
(in particular strictly more rows or columns), `grayscale_cython` raises
no error: it writes exactly the elements `dest[y][x]` with
`y < source.rows` and `x < source.columns` (the loop bounds come from the
source's shape), leaves every destination element outside the source's
extent unchanged, preserves the destination's shape, and returns. -/
theorem grayscale_cython_dest_frame (m : Mem) (H W H2 W2 : ℕ)
    (hs : WfImage3 m.source H W) (hd : WfImage1 m.dest H2 W2)
    (hH : H ≤ H2) (hW : W ≤ W2) :
    (∀ y x, y < H → x < W → destAt (grayscale_cython m) y x
        = pixelByte (srcAt m y x 0) (srcAt m y x 1) (srcAt m y x 2)) ∧
      (∀ y x, H ≤ y ∨ W ≤ x → destAt (grayscale_cython m) y x = destAt m y x) ∧
      (grayscale_cython m).dest.length = m.dest.length ∧
      ∀ y, ((grayscale_cython m).dest.getD y []).length = (m.dest.getD y []).length := by
  refine ⟨?_, ?_, grayscale_dest_length m, grayscale_row_length m⟩
  · intro y x hy hx
    have hxlen : x < (m.dest.getD y []).length := by
      rw [wf1_row_length hd (show y < H2 by omega)]
      omega
    have hHs : srcHeight m = H := hs.1
    have hWs : srcWidth m = W := wf3_row_length hs (by omega)
    exact grayscale_destAt_in m (by omega) (by omega) hxlen
  · intro y x hyx
    apply grayscale_destAt_frame
    have hHs : srcHeight m = H := hs.1
    by_cases hH0 : H = 0
    · left; omega
    · rcases hyx with hy | hx
      · left; omega
      · right; left
        have hWs : srcWidth m = W := wf3_row_length hs (by omega)
        omega

set_option maxHeartbeats 1000000 in
/-- Witness for C8: 1×1 source, 2×2 destination. -/
theorem grayscale_cython_dest_frame_witness :
    WfImage3 [[[10, 20, 30]]] 1 1 ∧ WfImage1 [[3, 4], [5, 6]] 2 2 ∧
      ((∀ y x, y < 1 → x < 1 →
          destAt (grayscale_cython ⟨[[[10, 20, 30]]], [[3, 4], [5, 6]]⟩) y x
            = pixelByte (srcAt ⟨[[[10, 20, 30]]], [[3, 4], [5, 6]]⟩ y x 0)
                (srcAt ⟨[[[10, 20, 30]]], [[3, 4], [5, 6]]⟩ y x 1)
                (srcAt ⟨[[[10, 20, 30]]], [[3, 4], [5, 6]]⟩ y x 2)) ∧
        (∀ y x, 1 ≤ y ∨ 1 ≤ x →
          destAt (grayscale_cython ⟨[[[10, 20, 30]]], [[3, 4], [5, 6]]⟩) y x
            = destAt ⟨[[[10, 20, 30]]], [[3, 4], [5, 6]]⟩ y x) ∧
        (grayscale_cython ⟨[[[10, 20, 30]]], [[3, 4], [5, 6]]⟩).dest.length
          = (Mem.mk [[[10, 20, 30]]] [[3, 4], [5, 6]]).dest.length ∧
        ∀ y, ((grayscale_cython ⟨[[[10, 20, 30]]], [[3, 4], [5, 6]]⟩).dest.getD y []).length
          = ((Mem.mk [[[10, 20, 30]]] [[3, 4], [5, 6]]).dest.getD y []).length) :=
  ⟨by decide, by decide,
    grayscale_cython_dest_frame ⟨[[[10, 20, 30]]], [[3, 4], [5, 6]]⟩ 1 1 2 2
      (by decide) (by decide) (by decide) (by decide)⟩

/-- C9: on a 0×0 (empty) source with matching 0×0 destination,
`grayscale_cython` performs no writes: the loop ranges are empty and the
memory is returned unchanged. -/
theorem grayscale_cython_empty (m : Mem) (hsrc : m.source = []) (_hdst : m.dest = []) :
    grayscale_cython m = m := by
  unfold grayscale_cython srcHeight
  rw [hsrc]
  rfl

/-- Witness for C9 at the concrete empty memory. -/
theorem grayscale_cython_empty_witness :
    (Mem.mk [] []).source = [] ∧ (Mem.mk [] []).dest = [] ∧
      grayscale_cython ⟨[], []⟩ = (⟨[], []⟩ : Mem) :=
  ⟨rfl, rfl, grayscale_cython_empty ⟨[], []⟩ rfl rfl⟩

/-- C10: `grayscale_cython` never mutates the source image: for every
memory state (in particular every matching-extent source/dest pair), the
source buffer after the call equals its value before the call,
element for element. -/
theorem grayscale_cython_source_unchanged (m : Mem) :
    (grayscale_cython m).source = m.source :=
  grayscale_source_eq m
